import Mathlib

/-!
Shallow embedding of the eh-redis event store (`eventstore.go`).

The Redis keyspace is modelled as a function from keys to hashes; a hash is an
association list from field strings to stored records.  Per-version values are
stored as the structured record itself (the JSON envelope round trip of
`AggregateEvent.MarshalBinary`/`UnmarshalBinary` is the identity on the exported
fields and drops the unexported `data` field).  The pluggable payload encoder
and the JSON metadata (de)serialisation are parameters of the model, bundled in
`Codec`.  Go map iteration order (over `dbEvents` in `Save` and over
`cmd.Val()` in `Load`) is unspecified, so both operations take an explicit
`shuffle` parameter; theorems quantify over all permutation-functions.

In go-redis v6 (`github.com/go-redis/redis`), commands invoked directly on a
`redis.Tx` inside `Watch` are sent to the server immediately — no MULTI/EXEC
pipeline is opened by this code — so each `HSetNX` of a batch takes effect
individually and earlier writes persist when a later one reports a conflict.
`runHSetNXs` embeds exactly that behaviour, and `runConc` embeds an arbitrary
interleaving of two such command sequences issued by two concurrent writers.
-/

namespace EhRedis

/-- Sentinel errors of `eventstore.go` (`ErrVersionConflict`, ...) and of the
eventhorizon framework (`eh.ErrNoEventsToAppend`, ...). -/
inductive ErrKind where
  | errNoEventsToAppend
  | errInvalidEvent
  | errIncorrectEventVersion
  | errCouldNotMarshalEvent
  | errVersionConflict
  | errCouldNotSaveAggregate
  | errCouldNotUnmarshalEvent
  | errCouldNotClearDB
  deriving DecidableEq, Repr

/-- Go error values as this store produces them: a bare sentinel error, an
`eh.EventStoreError{Err: k}` with nil `BaseErr` (`store0`), or an
`eh.EventStoreError{Err: k, BaseErr: b}` (`store1`). -/
inductive GoError where
  | sentinel (k : ErrKind)
  | store0 (k : ErrKind)
  | store1 (k : ErrKind) (base : GoError)
  deriving DecidableEq, Repr

/-- A caller branches on the error kind by inspecting the `Err` field of an
`eh.EventStoreError` and, recursively, of its `BaseErr` chain. -/
def GoError.hasKind : GoError → ErrKind → Bool
  | .sentinel k, k' => k == k'
  | .store0 k, k' => k == k'
  | .store1 k b, k' => k == k' || b.hasKind k'

/-- The error `Save` returns when a version slot already exists:
`eh.EventStoreError{Err: ErrCouldNotSaveAggregate, BaseErr:
eh.EventStoreError{Err: ErrVersionConflict}}` (eventstore.go:160-177). -/
def conflictWrapped : GoError :=
  .store1 .errCouldNotSaveAggregate (.store0 .errVersionConflict)

/-- `map[string]interface{}` metadata; the nil map is `none`. -/
abbrev Meta := Option (List (String × String))

/-- The `eh.Event` collaborator interface, as consumed by the store:
`AggregateID, AggregateType, EventType, Version, Timestamp, Data, Metadata`.
Aggregate ids (UUIDs) are modelled as naturals rendered to strings. -/
structure Event where
  aggregateID : Nat
  aggregateType : String
  eventType : String
  version : Int
  timestamp : Nat
  data : Option String
  metadata : Meta
  deriving DecidableEq, Repr

/-- The persisted record (`AggregateEvent` in eventstore.go:46-58).  `data` is
the unexported field, absent from the JSON envelope; `nspace` is the Go
`Namespace` field (that word is a Lean keyword). -/
structure AggregateEvent where
  eventID : Nat
  nspace : String
  aggregateID : Nat
  aggregateType : String
  eventType : String
  rawEventData : Option String
  timestamp : Nat
  version : Int
  metaData : Meta
  data : Option String
  rawMetaData : Option String
  deriving DecidableEq, Repr

instance : Inhabited AggregateEvent :=
  ⟨{ eventID := 0, nspace := "", aggregateID := 0, aggregateType := "",
     eventType := "", rawEventData := none, timestamp := 0, version := 0,
     metaData := none, data := none, rawMetaData := none }⟩

/-- Modelled from the spec: the pluggable `Encoder` (`jsonEncoder`), whose
source is not part of the repository snapshot, together with the JSON
(de)serialisation of the metadata map.  Per §4.1 the contract is
`Marshal(payload) -> bytes | EncodeError` and
`Unmarshal(event_type_name, bytes) -> payload | DecodeError`, with Marshal
returning a nil representation (`none`) for absent payloads rather than
failing. -/
structure Codec where
  encMarshal : Option String → Except GoError (Option String)
  encUnmarshal : String → String → Except GoError String
  metaMarshal : Meta → Except GoError String
  metaUnmarshal : String → Except GoError Meta

/-- A Redis hash: field string (stringified version) to stored record. -/
abbrev RHash := List (String × AggregateEvent)

/-- The Redis keyspace; a key holding the empty hash is an absent key. -/
abbrev Storage := String → RHash

def emptyStorage : Storage := fun _ => []

def getHash (st : Storage) (k : String) : RHash := st k

def setHash (st : Storage) (k : String) (h : RHash) : Storage :=
  fun k' => if k' = k then h else st k'

/-- `HEXISTS`-style field lookup used by `HSetNX`. -/
def hashHasField (h : RHash) (f : String) : Bool :=
  h.any (fun p => p.1 == f)

/-- The per-aggregate key `fmt.Sprintf("%s:%s", ns, aggregateID)`. -/
def aggKey (ns : String) (id : Nat) : String :=
  ns ++ ":" ++ toString id

/-- `newDBEvent` (eventstore.go:72-104): marshal the payload, marshal the
metadata, copy identity/version/timestamp fields; `eid` is the freshly
generated `NewUUID()`. -/
def newDBEvent (c : Codec) (ns : String) (eid : Nat) (ev : Event) :
    Except GoError AggregateEvent :=
  match c.encMarshal ev.data with
  | .error e => .error (.store1 .errCouldNotMarshalEvent e)
  | .ok rawData =>
    match c.metaMarshal ev.metadata with
    | .error e => .error (.store1 .errCouldNotMarshalEvent e)
    | .ok rawMeta =>
      .ok { eventID := eid, nspace := ns, aggregateID := ev.aggregateID,
            aggregateType := ev.aggregateType, eventType := ev.eventType,
            rawEventData := rawData, timestamp := ev.timestamp,
            version := ev.version, metaData := none, data := none,
            rawMetaData := some rawMeta }

/-- The validation-and-build loop of `Save` (eventstore.go:136-158): for each
event check the aggregate id, check that the version is the successor of the
running counter, build the record, and key it by `strconv.Itoa(version)`.
`i` is the running index used to draw fresh record ids from `gen`. -/
def buildDBEvents (c : Codec) (ns : String) (gen : Nat → Nat)
    (aggregateID : Nat) : Nat → Int → List Event →
    Except GoError (List (String × AggregateEvent))
  | _, _, [] => .ok []
  | i, ver, ev :: rest =>
    if ev.aggregateID ≠ aggregateID then .error (.store0 .errInvalidEvent)
    else if ev.version ≠ ver + 1 then .error (.store0 .errIncorrectEventVersion)
    else
      match newDBEvent c ns (gen i) ev with
      | .error e => .error e
      | .ok ae =>
        match buildDBEvents c ns gen aggregateID (i + 1) (ver + 1) rest with
        | .error e => .error e
        | .ok built => .ok ((toString ev.version, ae) :: built)

/-- The write loop of `Save` (eventstore.go:160-170): issue `HSetNX` per field
in iteration order; the first field that already exists stops the loop with a
conflict, but fields written before it stay written (each command was already
executed by the server). -/
def runHSetNXs (h : RHash) : List (String × AggregateEvent) → RHash × Bool
  | [] => (h, true)
  | (f, v) :: rest =>
    if hashHasField h f then (h, false)
    else runHSetNXs (h ++ [(f, v)]) rest

/-- `Save` (eventstore.go:122-180).  `gen` models the package-level `NewUUID`
generator, `shuffleS` the Go map iteration order over `dbEvents`.  Returns the
resulting keyspace and the returned error (`none` on success). -/
def Save (c : Codec) (gen : Nat → Nat)
    (shuffleS : List (String × AggregateEvent) → List (String × AggregateEvent))
    (ns : String) (events : List Event) (originalVersion : Int)
    (st : Storage) : Storage × Option GoError :=
  match events with
  | [] => (st, some (.store0 .errNoEventsToAppend))
  | e0 :: _ =>
    match buildDBEvents c ns gen e0.aggregateID 0 originalVersion events with
    | .error err => (st, some err)
    | .ok built =>
      let key := aggKey ns e0.aggregateID
      let res := runHSetNXs (getHash st key) (shuffleS built)
      if res.2 then (setHash st key res.1, none)
      else (setHash st key res.1, some conflictWrapped)

/-- Decoding one stored value in `Load` (eventstore.go:188-223).  The envelope
JSON round trip keeps every exported field and leaves the unexported `data`
field nil; then the payload is decoded only when `RawEventData` is non-nil,
`RawEventData` is cleared, and the metadata is decoded only when `RawMetaData`
is non-nil. -/
def decodeDBEvent (c : Codec) (v : AggregateEvent) :
    Except GoError AggregateEvent :=
  let e0 : AggregateEvent := { v with data := none }
  let step1 : Except GoError AggregateEvent :=
    match e0.rawEventData with
    | none => .ok e0
    | some raw =>
      match c.encUnmarshal e0.eventType raw with
      | .error err => .error (.store1 .errCouldNotUnmarshalEvent err)
      | .ok d => .ok { e0 with data := some d }
  match step1 with
  | .error err => .error err
  | .ok e1 =>
    let e2 := { e1 with rawEventData := none }
    match e2.rawMetaData with
    | none => .ok e2
    | some raw =>
      match c.metaUnmarshal raw with
      | .error err => .error (.store1 .errCouldNotUnmarshalEvent err)
      | .ok m => .ok { e2 with metaData := m }

/-- The decode loop of `Load`: values are processed in iteration order and the
first decode failure aborts the whole call. -/
def decodeAll (c : Codec) : List AggregateEvent →
    Except GoError (List AggregateEvent)
  | [] => .ok []
  | v :: rest =>
    match decodeDBEvent c v with
    | .error e => .error e
    | .ok r =>
      match decodeAll c rest with
      | .error e => .error e
      | .ok rs => .ok (r :: rs)

/-- The comparison used by `sort.Slice` in `Load` (eventstore.go:225-227). -/
def leByVersion (a b : AggregateEvent) : Prop := a.version ≤ b.version

instance : DecidableRel leByVersion :=
  fun a b => inferInstanceAs (Decidable (a.version ≤ b.version))

instance : IsTotal AggregateEvent leByVersion :=
  ⟨fun a b => Int.le_total a.version b.version⟩

instance : IsTrans AggregateEvent leByVersion :=
  ⟨fun _ _ _ hab hbc => le_trans hab hbc⟩

/-- Strict version order on records. -/
def ltByVersion (a b : AggregateEvent) : Prop := a.version < b.version

instance : IsAntisymm AggregateEvent ltByVersion :=
  ⟨fun _ _ h h' => absurd (h.trans h') (lt_irrefl _)⟩

/-- `sort.Slice(events, func(i, j) { return events[i].Version() <
events[j].Version() })`: some permutation ordered by version; with the keys at
hand any correct sort yields it. -/
def sortByVersion (l : List AggregateEvent) : List AggregateEvent :=
  List.insertionSort leByVersion l

/-- `Load` (eventstore.go:183-229).  `shuffleL` is the Go map iteration order
over `HGetAll`'s result. -/
def Load (c : Codec) (shuffleL : RHash → RHash) (ns : String) (id : Nat)
    (st : Storage) : Except GoError (List AggregateEvent) :=
  match decodeAll c ((shuffleL (getHash st (aggKey ns id))).map (·.2)) with
  | .error e => .error e
  | .ok es => .ok (sortByVersion es)

/-- Character-list prefix test. -/
def listPref : List Char → List Char → Bool
  | [], _ => true
  | _ :: _, [] => false
  | a :: as, b :: bs => if a = b then listPref as bs else false

/-- The `SCAN` pattern `fmt.Sprintf("%s:*", ns)` of `Clear`
(eventstore.go:240), embedded for namespaces without glob metacharacters:
a key matches when it starts with `ns ++ ":"`. -/
def scanMatch (ns : String) (k : String) : Bool :=
  listPref (ns ++ ":").data k.data

/-- `Clear` (eventstore.go:236-263): scan all keys matching the namespace
pattern and delete each; extensionally, every matching key ends up absent. -/
def Clear (ns : String) (st : Storage) : Storage :=
  fun k => if scanMatch ns k then [] else st k

/-- The observable behaviour of a loaded `event` wrapper
(eventstore.go:267-308): every `eh.Event` interface method forwards to the
embedded record. -/
def eventObs (r : AggregateEvent) :
    Nat × String × String × Int × Nat × Option String × Meta :=
  (r.aggregateID, r.aggregateType, r.eventType, r.version, r.timestamp,
   r.data, r.metaData)

/-- The same observables of an input event. -/
def inputObs (e : Event) :
    Nat × String × String × Int × Nat × Option String × Meta :=
  (e.aggregateID, e.aggregateType, e.eventType, e.version, e.timestamp,
   e.data, e.metadata)

/-- One step of two concurrent `Save` write loops: a schedule interleaves the
`HSetNX` commands of writer `true` and writer `false`; a writer whose command
finds its field taken returns from its closure (its remaining commands are
never issued); each single `HSetNX` is atomic on the server. -/
def runConc : List (Bool × String × AggregateEvent) → RHash → Bool → Bool →
    RHash × Bool × Bool
  | [], h, a1, a2 => (h, a1, a2)
  | (who, f, v) :: rest, h, a1, a2 =>
    if (if who then a1 else a2) then
      if hashHasField h f then
        runConc rest h (if who then false else a1) (if who then a2 else false)
      else
        runConc rest (h ++ [(f, v)]) a1 a2
    else
      runConc rest h a1 a2

/-- The `HSetNX` commands a given writer contributes to a schedule. -/
def opsOf (who : Bool) (sched : List (Bool × String × AggregateEvent)) :
    List (String × AggregateEvent) :=
  (sched.filter (fun t => t.1 == who)).map (fun t => t.2)

/-- What a concurrent `Save` returns, as a function of whether its write loop
ran to completion: `nil` on success, the wrapped version-conflict error
otherwise (the closure's only failure mode, eventstore.go:162-167,172-177). -/
def concSaveResult (alive : Bool) : Option GoError :=
  if alive then none else some conflictWrapped

/-- A concrete codec instance used to evaluate the operations on sample
inputs: payload marshalling is the identity and the nil metadata map is stored
as the JSON literal `null`, as `json.Marshal` of a nil map produces. -/
def idCodec : Codec where
  encMarshal := fun d => .ok d
  encUnmarshal := fun _ b => .ok b
  metaMarshal := fun _ => .ok "null"
  metaUnmarshal := fun _ => .ok none

/-- A sample event of aggregate 7 with a payload and nil metadata. -/
def sampleEvent (v : Int) (pl : String) : Event :=
  { aggregateID := 7, aggregateType := "T", eventType := "Created",
    version := v, timestamp := 5, data := some pl, metadata := none }

/-- The record stored under a given version with every optional part absent;
such a record decodes to itself. -/
def rdV (v : Int) : AggregateEvent :=
  { (default : AggregateEvent) with version := v }

/-- Versions present in one aggregate's storage slot. -/
def versionsAt (st : Storage) (k : String) : List Int :=
  (getHash st k).map (fun p => p.2.version)

/-- The contiguous run of integers `s, s+1, ..., s+n-1`. -/
def intsFrom (s : Int) : Nat → List Int
  | 0 => []
  | n + 1 => s :: intsFrom (s + 1) n

/-- The encoder round-trips the given payload for the given event type name:
`Marshal` yields a nil representation exactly for the absent payload, and
`Unmarshal` recovers a present payload from `Marshal`'s bytes (§4.1). -/
def EncRoundTrip (c : Codec) (et : String) (d : Option String) : Prop :=
  match d with
  | none => c.encMarshal none = .ok none
  | some p => ∃ b, c.encMarshal (some p) = .ok (some b) ∧
      c.encUnmarshal et b = .ok p

/-- The JSON metadata serialisation round-trips the given metadata map. -/
def MetaRoundTrip (c : Codec) (m : Meta) : Prop :=
  ∃ s, c.metaMarshal m = .ok s ∧ c.metaUnmarshal s = .ok m

/-- Hash well-formedness maintained by `Save`: fields are pairwise distinct
(Redis hash fields are unique) and each field is the stringified version of
the record it stores. -/
def WFHash (h : RHash) : Prop :=
  (h.map (·.1)).Nodup ∧ ∀ p ∈ h, p.1 = toString p.2.version

/-- A sequence of successful `Save` calls against one aggregate, starting from
empty storage; the original version passed to each call is arbitrary. -/
inductive SaveRun (c : Codec) (ns : String) (aggId : Nat) : Storage → Prop
  | base : SaveRun c ns aggId emptyStorage
  | step (st : Storage) (events : List Event) (gen : Nat → Nat)
      (shuffleS : List (String × AggregateEvent) →
        List (String × AggregateEvent)) (ov : Int)
      (hsh : ∀ l, List.Perm (shuffleS l) l)
      (hag : ∀ e ∈ events, e.aggregateID = aggId)
      (hprev : SaveRun c ns aggId st)
      (hok : (Save c gen shuffleS ns events ov st).2 = none) :
      SaveRun c ns aggId (Save c gen shuffleS ns events ov st).1

/-- A sequence of successful `Save` calls against one aggregate, starting from
empty storage, in which every call passes as original version the number of
versions currently stored for the aggregate (the well-behaved caller of the
eventhorizon contract). -/
inductive GoodRun (c : Codec) (ns : String) (aggId : Nat) : Storage → Prop
  | base : GoodRun c ns aggId emptyStorage
  | step (st : Storage) (events : List Event) (gen : Nat → Nat)
      (shuffleS : List (String × AggregateEvent) →
        List (String × AggregateEvent))
      (hsh : ∀ l, List.Perm (shuffleS l) l)
      (hag : ∀ e ∈ events, e.aggregateID = aggId)
      (hprev : GoodRun c ns aggId st)
      (hok : (Save c gen shuffleS ns events
        ((getHash st (aggKey ns aggId)).length : Int) st).2 = none) :
      GoodRun c ns aggId (Save c gen shuffleS ns events
        ((getHash st (aggKey ns aggId)).length : Int) st).1

/-- The record `newDBEvent` builds for `sampleEvent 1 "x"` with record id 0. -/
def recW1 : AggregateEvent :=
  { eventID := 0, nspace := "ns", aggregateID := 7, aggregateType := "T",
    eventType := "Created", rawEventData := some "x", timestamp := 5,
    version := 1, metaData := none, data := none, rawMetaData := some "null" }

/-- The record `newDBEvent` builds for `sampleEvent 1 "y"` with record id 0. -/
def recW2 : AggregateEvent :=
  { eventID := 0, nspace := "ns", aggregateID := 7, aggregateType := "T",
    eventType := "Created", rawEventData := some "y", timestamp := 5,
    version := 1, metaData := none, data := none, rawMetaData := some "null" }

/-- A schedule interleaving two single-event writers contesting version 1. -/
def schedW : List (Bool × String × AggregateEvent) :=
  [(true, ("1", recW1)), (false, ("1", recW2))]

/-- Storage reached by one successful Save of version 1 of aggregate 7. -/
def st1W : Storage :=
  (Save idCodec (fun i => i) (fun l => l) "ns" [sampleEvent 1 "p"] 0
    emptyStorage).1

/-- What `newDBEvent` guarantees about the record built for an event: the
field is the stringified version, identity/version/timestamp fields are
copied, the namespace comes from the context, the raw parts are the marshal
outputs, and the decoded parts start out nil. -/
def BuiltFrom (c : Codec) (ns : String) (e : Event)
    (p : String × AggregateEvent) : Prop :=
  p.1 = toString e.version ∧
  p.2.aggregateID = e.aggregateID ∧
  p.2.aggregateType = e.aggregateType ∧
  p.2.eventType = e.eventType ∧
  p.2.version = e.version ∧
  p.2.timestamp = e.timestamp ∧
  p.2.nspace = ns ∧
  p.2.data = none ∧
  p.2.metaData = none ∧
  c.encMarshal e.data = .ok p.2.rawEventData ∧
  ∃ s, c.metaMarshal e.metadata = .ok s ∧ p.2.rawMetaData = some s

/-- The decoded record of a stored value whose decode succeeds. -/
def decOr (c : Codec) (v : AggregateEvent) : AggregateEvent :=
  ((decodeDBEvent c v).toOption).getD default

/-- Storage holding one payload-free record of aggregate 7. -/
def stNil : Storage :=
  setHash emptyStorage (aggKey "ns" 7) [("1", rdV 1)]

/-- Storage holding two records of aggregate 7, iteration order 2-before-1. -/
def stTwo : Storage :=
  setHash emptyStorage (aggKey "ns" 7) [("2", rdV 2), ("1", rdV 1)]

theorem getHash_setHash_self (st : Storage) (k : String) (h : RHash) :
    getHash (setHash st k h) k = h := by
  simp [getHash, setHash]

theorem getHash_setHash_other (st : Storage) (k k' : String) (h : RHash)
    (hne : k' ≠ k) : getHash (setHash st k h) k' = getHash st k' := by
  simp [getHash, setHash, hne]

theorem listPref_append (p r : List Char) : listPref p (p ++ r) = true := by
  induction p with
  | nil => rfl
  | cons a as ih => simpa [listPref] using ih

theorem listPref_comparable : ∀ (s p q : List Char),
    listPref p s = true → listPref q s = true →
    listPref p q = true ∨ listPref q p = true := by
  intro s
  induction s with
  | nil =>
    intro p q hp _
    cases p with
    | nil => exact Or.inl rfl
    | cons a as => simp [listPref] at hp
  | cons c cs ih =>
    intro p q hp hq
    cases p with
    | nil => exact Or.inl rfl
    | cons a as =>
      cases q with
      | nil => exact Or.inr rfl
      | cons b bs =>
        by_cases hac : a = c
        · by_cases hbc : b = c
          · subst hac
            subst hbc
            simp only [listPref, if_pos rfl] at hp hq ⊢
            exact ih as bs hp hq
          · rw [listPref, if_neg hbc] at hq
            exact absurd hq (by simp)
        · rw [listPref, if_neg hac] at hp
          exact absurd hp (by simp)

theorem aggKey_data (ns : String) (id : Nat) :
    (aggKey ns id).data = (ns ++ ":").data ++ (toString id).data := by
  simp [aggKey, String.data_append, List.append_assoc]

theorem scanMatch_own_key (ns : String) (id : Nat) :
    scanMatch ns (aggKey ns id) = true := by
  rw [scanMatch, aggKey_data]
  exact listPref_append _ _

/-- C8 : Load on a namespace/aggregate with zero stored records returns the
empty sequence of events and no error, for every iteration order the storage
may yield. -/
theorem load_empty_aggregate (c : Codec) (shuffleL : RHash → RHash)
    (ns : String) (id : Nat) (st : Storage)
    (hsh : ∀ l, List.Perm (shuffleL l) l)
    (hempty : getHash st (aggKey ns id) = []) :
    Load c shuffleL ns id st = .ok [] := by
  have h0 : shuffleL (getHash st (aggKey ns id)) = [] := by
    rw [hempty]
    exact (hsh []).eq_nil
  simp [Load, h0, decodeAll, sortByVersion, List.insertionSort]

theorem load_empty_aggregate_witness :
    Load idCodec (fun l => l) "ns" 7 emptyStorage = .ok [] :=
  load_empty_aggregate idCodec (fun l => l) "ns" 7 emptyStorage
    (fun l => List.Perm.refl l) rfl

/-- C7 : counterexample — the claim fails for the distinct namespaces
ns1 = "a" and ns2 = "a:b": the aggregate key "a:b:1" of namespace "a:b"
matches the purge pattern "a:*", so Clear("a") deletes a record stored under
namespace "a:b" instead of leaving it untouched. -/
theorem clear_deletes_other_namespace_cex :
    getHash (setHash emptyStorage (aggKey "a:b" 1) [("1", default)])
      (aggKey "a:b" 1) = [("1", default)] ∧
    getHash (Clear "a" (setHash emptyStorage (aggKey "a:b" 1) [("1", default)]))
      (aggKey "a:b" 1) = [] := by
  constructor
  · rfl
  · rfl

/-- C7 (amended) : Clear on namespace ns1 removes every aggregate key under
ns1 and leaves every aggregate key under ns2 unchanged, provided the two
namespace key prefixes ns1 ++ ":" and ns2 ++ ":" are not prefixes of one
another (in particular whenever neither namespace extends the other through
the ':' separator). -/
theorem clear_namespace_isolation (ns1 ns2 : String) (st : Storage) (id : Nat)
    (h12 : listPref (ns1 ++ ":").data (ns2 ++ ":").data = false)
    (h21 : listPref (ns2 ++ ":").data (ns1 ++ ":").data = false) :
    getHash (Clear ns1 st) (aggKey ns1 id) = [] ∧
    getHash (Clear ns1 st) (aggKey ns2 id) = getHash st (aggKey ns2 id) := by
  constructor
  · simp [getHash, Clear, scanMatch_own_key]
  · have hm : scanMatch ns1 (aggKey ns2 id) = false := by
      by_contra hc
      have htrue : scanMatch ns1 (aggKey ns2 id) = true := by
        cases h : scanMatch ns1 (aggKey ns2 id) with
        | true => rfl
        | false => exact absurd h hc
      rw [scanMatch, aggKey_data] at htrue
      have hown : listPref (ns2 ++ ":").data
          ((ns2 ++ ":").data ++ (toString id).data) = true :=
        listPref_append _ _
      rcases listPref_comparable _ _ _ htrue hown with h | h
      · rw [h12] at h
        exact absurd h (by simp)
      · rw [h21] at h
        exact absurd h (by simp)
    simp [getHash, Clear, hm]

theorem decodeDBEvent_version {c : Codec} {v r : AggregateEvent}
    (h : decodeDBEvent c v = .ok r) : r.version = v.version := by
  cases hre : v.rawEventData with
  | none =>
    cases hrm : v.rawMetaData with
    | none =>
      simp only [decodeDBEvent, hre, hrm, Except.ok.injEq] at h
      subst h
      rfl
    | some raw =>
      simp only [decodeDBEvent, hre, hrm] at h
      cases hmu : c.metaUnmarshal raw with
      | error e => simp [hmu] at h
      | ok m =>
        simp only [hmu, Except.ok.injEq] at h
        subst h
        rfl
  | some raw =>
    cases hu : c.encUnmarshal v.eventType raw with
    | error e => simp [decodeDBEvent, hre, hu] at h
    | ok d =>
      cases hrm : v.rawMetaData with
      | none =>
        simp only [decodeDBEvent, hre, hu, hrm, Except.ok.injEq] at h
        subst h
        rfl
      | some raw2 =>
        simp only [decodeDBEvent, hre, hu, hrm] at h
        cases hmu : c.metaUnmarshal raw2 with
        | error e => simp [hmu] at h
        | ok m =>
          simp only [hmu, Except.ok.injEq] at h
          subst h
          rfl

theorem decodeDBEvent_indep (c : Codec)
    (u : String → String → Except GoError String) (v : AggregateEvent)
    (hnil : v.rawEventData = none) :
    decodeDBEvent { c with encUnmarshal := u } v = decodeDBEvent c v := by
  simp only [decodeDBEvent, hnil]

theorem decodeDBEvent_nil_ok (c : Codec) (v : AggregateEvent)
    (hnil : v.rawEventData = none)
    (hmeta : ∀ s, v.rawMetaData = some s → ∃ m, c.metaUnmarshal s = .ok m) :
    ∃ r, decodeDBEvent c v = .ok r ∧ r.data = none := by
  cases hrm : v.rawMetaData with
  | none =>
    refine ⟨{ v with data := none, rawEventData := none }, ?_, rfl⟩
    simp [decodeDBEvent, hnil, hrm]
  | some raw =>
    obtain ⟨m, hm⟩ := hmeta raw hrm
    refine ⟨{ v with data := none, rawEventData := none, metaData := m },
      ?_, rfl⟩
    simp [decodeDBEvent, hnil, hrm, hm]

theorem decodeAll_nil_payload (c : Codec)
    (u : String → String → Except GoError String) :
    ∀ (vals : List AggregateEvent),
    (∀ v ∈ vals, v.rawEventData = none) →
    (∀ v ∈ vals, ∀ s, v.rawMetaData = some s →
      ∃ m, c.metaUnmarshal s = .ok m) →
    (∃ es, decodeAll c vals = .ok es ∧ ∀ e ∈ es, e.data = none) ∧
      decodeAll { c with encUnmarshal := u } vals = decodeAll c vals
  | [], _, _ => ⟨⟨[], rfl, by simp⟩, rfl⟩
  | v :: rest, h1, h2 => by
    obtain ⟨r, hr, hrd⟩ :=
      decodeDBEvent_nil_ok c v (h1 v (by simp)) (h2 v (by simp))
    obtain ⟨⟨es, hes, hesd⟩, hind⟩ := decodeAll_nil_payload c u rest
      (fun x hx => h1 x (by simp [hx])) (fun x hx => h2 x (by simp [hx]))
    refine ⟨⟨r :: es, ?_, ?_⟩, ?_⟩
    · simp [decodeAll, hr, hes]
    · intro e he
      rcases List.mem_cons.1 he with he | he
      · exact he ▸ hrd
      · exact hesd e he
    · simp [decodeAll, decodeDBEvent_indep c u v (h1 v (by simp)), hr, hind]

/-- C10 : a stored record with absent raw payload bytes is returned by Load
with nil `Data()` and without the payload decoder being consulted: the whole
Load result is the same for every payload decoder, and it succeeds whenever
the records' metadata bytes (if any) decode — so decode failures can only
originate from records carrying payload or metadata bytes. -/
theorem load_nil_payload_skips_decoder (c : Codec) (shuffleL : RHash → RHash)
    (ns : String) (id : Nat) (st : Storage)
    (hsh : ∀ l, List.Perm (shuffleL l) l)
    (hnil : ∀ p ∈ getHash st (aggKey ns id), p.2.rawEventData = none)
    (hmeta : ∀ p ∈ getHash st (aggKey ns id), ∀ s, p.2.rawMetaData = some s →
      ∃ m, c.metaUnmarshal s = .ok m) :
    (∃ es, Load c shuffleL ns id st = .ok es ∧ ∀ e ∈ es, e.data = none) ∧
    ∀ u, Load { c with encUnmarshal := u } shuffleL ns id st =
      Load c shuffleL ns id st := by
  have hmem : ∀ v ∈ (shuffleL (getHash st (aggKey ns id))).map (·.2),
      ∃ p ∈ getHash st (aggKey ns id), p.2 = v := by
    intro v hv
    obtain ⟨p, hp, hpv⟩ := List.mem_map.1 hv
    exact ⟨p, (hsh _).subset hp, hpv⟩
  have h1 : ∀ v ∈ (shuffleL (getHash st (aggKey ns id))).map (·.2),
      v.rawEventData = none := by
    intro v hv
    obtain ⟨p, hp, hpv⟩ := hmem v hv
    exact hpv ▸ hnil p hp
  have h2 : ∀ v ∈ (shuffleL (getHash st (aggKey ns id))).map (·.2),
      ∀ s, v.rawMetaData = some s → ∃ m, c.metaUnmarshal s = .ok m := by
    intro v hv
    obtain ⟨p, hp, hpv⟩ := hmem v hv
    exact hpv ▸ hmeta p hp
  constructor
  · obtain ⟨⟨es, hes, hesd⟩, _⟩ :=
      decodeAll_nil_payload c c.encUnmarshal _ h1 h2
    refine ⟨sortByVersion es, ?_, ?_⟩
    · simp [Load, hes]
    · intro e he
      exact hesd e ((List.mem_insertionSort leByVersion).1 he)
  · intro u
    obtain ⟨_, hind⟩ := decodeAll_nil_payload c u _ h1 h2
    simp [Load, hind]

theorem load_nil_payload_skips_decoder_witness :
    Load { idCodec with
        encUnmarshal := fun _ _ =>
          .error (.sentinel .errCouldNotUnmarshalEvent) }
      (fun l => l) "ns" 7 stNil = Load idCodec (fun l => l) "ns" 7 stNil :=
  (load_nil_payload_skips_decoder idCodec (fun l => l) "ns" 7 stNil
    (fun l => List.Perm.refl l)
    (fun p hp => by
      rw [show getHash stNil (aggKey "ns" 7) = [("1", rdV 1)] from rfl] at hp
      rw [List.mem_singleton] at hp
      subst hp
      rfl)
    (fun p hp s hs => by
      rw [show getHash stNil (aggKey "ns" 7) = [("1", rdV 1)] from rfl] at hp
      rw [List.mem_singleton] at hp
      subst hp
      exact Option.noConfusion hs)).2 _

theorem decodeAll_versions {c : Codec} : ∀ {vals es : List AggregateEvent},
    decodeAll c vals = .ok es → es.map (·.version) = vals.map (·.version) := by
  intro vals
  induction vals with
  | nil =>
    intro es h
    simp [decodeAll] at h
    simp [← h]
  | cons v rest ih =>
    intro es h
    cases hr : decodeDBEvent c v with
    | error e => simp [decodeAll, hr] at h
    | ok r =>
      cases hrest : decodeAll c rest with
      | error e => simp [decodeAll, hr, hrest] at h
      | ok rs =>
        simp only [decodeAll, hr, hrest, Except.ok.injEq] at h
        subst h
        simp [decodeDBEvent_version hr, ih hrest]

theorem pairwiseCombine {α : Type} {R S : α → α → Prop} :
    ∀ {l : List α}, l.Pairwise R → l.Pairwise S →
      l.Pairwise (fun a b => R a b ∧ S a b)
  | [], _, _ => List.Pairwise.nil
  | _ :: _, .cons hR hRt, .cons hS hSt =>
    List.Pairwise.cons (fun b hb => ⟨hR b hb, hS b hb⟩)
      (pairwiseCombine hRt hSt)

theorem pairwise_lt_of_le_nodup {l : List AggregateEvent}
    (hs : l.Pairwise leByVersion) (hn : (l.map (·.version)).Nodup) :
    l.Pairwise ltByVersion := by
  have hne : l.Pairwise (fun a b => a.version ≠ b.version) :=
    List.pairwise_map.1 hn
  exact (pairwiseCombine hs hne).imp
    (fun h => lt_of_le_of_ne h.1 h.2)

/-- C5 : whatever order the storage iteration yields the per-version values
in, the sequence a successful Load returns is strictly ordered by ascending
version (the stored records being per-version, their versions are pairwise
distinct). -/
theorem load_sorted_by_version (c : Codec) (shuffleL : RHash → RHash)
    (ns : String) (id : Nat) (st : Storage) (es : List AggregateEvent)
    (hsh : ∀ l, List.Perm (shuffleL l) l)
    (hnd : (versionsAt st (aggKey ns id)).Nodup)
    (hok : Load c shuffleL ns id st = .ok es) :
    es.Pairwise ltByVersion := by
  cases hda : decodeAll c ((shuffleL (getHash st (aggKey ns id))).map (·.2))
    with
  | error e => simp [Load, hda] at hok
  | ok ds =>
    simp only [Load, hda, Except.ok.injEq] at hok
    subst hok
    have hsorted : (sortByVersion ds).Pairwise leByVersion :=
      List.sorted_insertionSort leByVersion ds
    have hvds : ds.map (·.version) =
        ((shuffleL (getHash st (aggKey ns id))).map (·.2)).map (·.version) :=
      decodeAll_versions hda
    have hperm : List.Perm ((sortByVersion ds).map (·.version))
        (versionsAt st (aggKey ns id)) := by
      have p1 : List.Perm (sortByVersion ds) ds :=
        List.perm_insertionSort leByVersion ds
      have p2 : List.Perm ((sortByVersion ds).map (·.version))
          (ds.map (·.version)) := p1.map _
      rw [hvds] at p2
      have p3 : List.Perm
          (((shuffleL (getHash st (aggKey ns id))).map (·.2)).map (·.version))
          (versionsAt st (aggKey ns id)) := by
        rw [List.map_map]
        exact (hsh _).map _
      exact p2.trans p3
    exact pairwise_lt_of_le_nodup hsorted (hperm.nodup_iff.2 hnd)

theorem load_sorted_by_version_witness :
    ([rdV 1, rdV 2]).Pairwise ltByVersion :=
  load_sorted_by_version idCodec (fun l => l) "ns" 7 stTwo [rdV 1, rdV 2]
    (fun l => List.Perm.refl l) (by decide) (by rfl)

theorem newDBEvent_ok {c : Codec} {ns : String} {eid : Nat} {ev : Event}
    {rd : Option String} {s : String}
    (h1 : c.encMarshal ev.data = .ok rd) (h2 : c.metaMarshal ev.metadata = .ok s) :
    newDBEvent c ns eid ev =
      .ok { eventID := eid, nspace := ns, aggregateID := ev.aggregateID,
            aggregateType := ev.aggregateType, eventType := ev.eventType,
            rawEventData := rd, timestamp := ev.timestamp,
            version := ev.version, metaData := none, data := none,
            rawMetaData := some s } := by
  simp [newDBEvent, h1, h2]

theorem build_version_dev {c : Codec} {ns : String} {gen : Nat → Nat}
    {aggId : Nat} :
    ∀ (evs : List Event) (i : Nat) (ver : Int),
    (∀ e ∈ evs, e.aggregateID = aggId) →
    (∀ e ∈ evs, (∃ rd, c.encMarshal e.data = .ok rd) ∧
      (∃ s, c.metaMarshal e.metadata = .ok s)) →
    (∃ j, ∃ h : j < evs.length, (evs.get ⟨j, h⟩).version ≠ ver + 1 + j) →
    buildDBEvents c ns gen aggId i ver evs =
      .error (.store0 .errIncorrectEventVersion)
  | [], _, _, _, _, hdev => by
    obtain ⟨j, hj, _⟩ := hdev
    exact absurd hj (by simp)
  | ev :: rest, i, ver, hag, hm, hdev => by
    have hagev : ev.aggregateID = aggId := hag ev (by simp)
    by_cases hv : ev.version = ver + 1
    · obtain ⟨rd, hrd⟩ := (hm ev (by simp)).1
      obtain ⟨s, hs⟩ := (hm ev (by simp)).2
      have hdev' : ∃ j, ∃ h : j < rest.length,
          (rest.get ⟨j, h⟩).version ≠ (ver + 1) + 1 + j := by
        obtain ⟨j, hj, hne⟩ := hdev
        cases j with
        | zero =>
          exfalso
          apply hne
          show ((ev :: rest).get ⟨0, hj⟩).version = ver + 1 + ((0 : Nat) : Int)
          have h0 : ((ev :: rest).get ⟨0, hj⟩) = ev := rfl
          rw [h0, hv]
          simp
        | succ k =>
          have hj' : k < rest.length := by simpa using hj
          refine ⟨k, hj', ?_⟩
          have hgk : ((ev :: rest).get ⟨k + 1, hj⟩) = rest.get ⟨k, hj'⟩ := rfl
          rw [hgk] at hne
          have harith : ver + 1 + ((k + 1 : Nat) : Int) =
              (ver + 1) + 1 + (k : Int) := by push_cast; ring
          rw [harith] at hne
          exact hne
      have hrec := @build_version_dev c ns gen aggId rest (i + 1) (ver + 1)
        (fun e he => hag e (by simp [he])) (fun e he => hm e (by simp [he]))
        hdev'
      simp [buildDBEvents, hagev, hv, newDBEvent_ok hrd hs, hrec]
    · simp [buildDBEvents, hagev, hv]

/-- C6 : a batch in which some event does not carry version
originalVersion + 1 + i (in particular a version gap) makes Save fail with the
version-sequence error `eh.ErrIncorrectEventVersion` during validation, before
any storage mutation: the keyspace is returned unchanged and no event of the
batch, in particular none preceding the deviating one, is applied. -/
theorem save_version_gap_rejected (c : Codec) (gen : Nat → Nat)
    (shuffleS : List (String × AggregateEvent) →
      List (String × AggregateEvent))
    (ns : String) (e0 : Event) (rest : List Event) (ov : Int) (st : Storage)
    (hag : ∀ e ∈ e0 :: rest, e.aggregateID = e0.aggregateID)
    (hm : ∀ e ∈ e0 :: rest, (∃ rd, c.encMarshal e.data = .ok rd) ∧
      (∃ s, c.metaMarshal e.metadata = .ok s))
    (hdev : ∃ j, ∃ h : j < (e0 :: rest).length,
      ((e0 :: rest).get ⟨j, h⟩).version ≠ ov + 1 + j) :
    Save c gen shuffleS ns (e0 :: rest) ov st =
      (st, some (.store0 .errIncorrectEventVersion)) := by
  have hb := @build_version_dev c ns gen e0.aggregateID (e0 :: rest) 0 ov
    hag hm hdev
  simp [Save, hb]

theorem save_version_gap_rejected_witness :
    Save idCodec (fun i => i) (fun l => l) "ns"
      [sampleEvent 1 "a", sampleEvent 4 "b"] 0 emptyStorage =
      (emptyStorage, some (.store0 .errIncorrectEventVersion)) :=
  save_version_gap_rejected idCodec (fun i => i) (fun l => l) "ns"
    (sampleEvent 1 "a") [sampleEvent 4 "b"] 0 emptyStorage
    (by decide)
    (fun e _ => ⟨⟨e.data, rfl⟩, ⟨"null", rfl⟩⟩)
    ⟨1, by decide, by decide⟩

theorem clear_namespace_isolation_witness :
    (listPref ("ns1" ++ ":").data ("ns2" ++ ":").data = false ∧
     listPref ("ns2" ++ ":").data ("ns1" ++ ":").data = false) ∧
    (getHash (Clear "ns1" (setHash emptyStorage (aggKey "ns2" 3)
        [("1", default)])) (aggKey "ns1" 3) = [] ∧
     getHash (Clear "ns1" (setHash emptyStorage (aggKey "ns2" 3)
        [("1", default)])) (aggKey "ns2" 3) =
       getHash (setHash emptyStorage (aggKey "ns2" 3) [("1", default)])
         (aggKey "ns2" 3)) :=
  ⟨⟨by decide, by decide⟩,
   clear_namespace_isolation "ns1" "ns2"
     (setHash emptyStorage (aggKey "ns2" 3) [("1", default)]) 3
     (by decide) (by decide)⟩

theorem hashHasField_true_iff {h : RHash} {f : String} :
    hashHasField h f = true ↔ f ∈ h.map (·.1) := by
  simp [hashHasField, List.any_eq_true, List.mem_map]

theorem hashHasField_false_iff {h : RHash} {f : String} :
    hashHasField h f = false ↔ f ∉ h.map (·.1) := by
  rw [← Bool.not_eq_true, not_iff_not]
  exact hashHasField_true_iff

theorem runHSetNXs_step_new {h : RHash} {f : String} {v : AggregateEvent}
    {rest : List (String × AggregateEvent)}
    (hf : hashHasField h f = false) :
    runHSetNXs h ((f, v) :: rest) = runHSetNXs (h ++ [(f, v)]) rest := by
  simp [runHSetNXs, hf]

theorem runHSetNXs_success_append :
    ∀ {l : List (String × AggregateEvent)} {h : RHash},
    (runHSetNXs h l).2 = true → (runHSetNXs h l).1 = h ++ l
  | [], h, _ => by simp [runHSetNXs]
  | (f, v) :: rest, h, hs => by
    cases hf : hashHasField h f with
    | true => simp [runHSetNXs, hf] at hs
    | false =>
      rw [runHSetNXs_step_new hf] at hs ⊢
      rw [runHSetNXs_success_append hs]
      simp

theorem runHSetNXs_collision {f : String} :
    ∀ (l : List (String × AggregateEvent)) (h : RHash),
    f ∈ l.map (·.1) → hashHasField h f = true → (runHSetNXs h l).2 = false
  | [], _, hf, _ => by simp at hf
  | (g, v) :: rest, h, hf, hcol => by
    cases hg : hashHasField h g with
    | true => simp [runHSetNXs, hg]
    | false =>
      rw [runHSetNXs_step_new hg]
      have hfg : f ≠ g := by
        intro he
        rw [← he] at hg
        rw [hcol] at hg
        exact Bool.noConfusion hg
      have hf' : f ∈ rest.map (·.1) := by
        rcases List.mem_cons.1 hf with he | he
        · exact absurd he hfg
        · exact he
      have hcol' : hashHasField (h ++ [(g, v)]) f = true := by
        rw [hashHasField_true_iff] at hcol ⊢
        simp [hcol]
      exact runHSetNXs_collision rest _ hf' hcol'

theorem runHSetNXs_fields_nodup :
    ∀ (l : List (String × AggregateEvent)) (h : RHash),
    (h.map (·.1)).Nodup → ((runHSetNXs h l).1.map (·.1)).Nodup
  | [], h, hn => by simpa [runHSetNXs] using hn
  | (f, v) :: rest, h, hn => by
    cases hf : hashHasField h f with
    | true => simpa [runHSetNXs, hf] using hn
    | false =>
      rw [runHSetNXs_step_new hf]
      apply runHSetNXs_fields_nodup
      have hnotin : f ∉ h.map (·.1) := hashHasField_false_iff.1 hf
      simp [List.nodup_append, hn, hnotin]

theorem Save_ok_elim {c : Codec} {gen : Nat → Nat}
    {shuffleS : List (String × AggregateEvent) →
      List (String × AggregateEvent)}
    {ns : String} {events : List Event} {ov : Int} {st : Storage}
    (h : (Save c gen shuffleS ns events ov st).2 = none) :
    ∃ e0 rest built, events = e0 :: rest ∧
      buildDBEvents c ns gen e0.aggregateID 0 ov events = .ok built ∧
      (runHSetNXs (getHash st (aggKey ns e0.aggregateID))
        (shuffleS built)).2 = true ∧
      (Save c gen shuffleS ns events ov st).1 =
        setHash st (aggKey ns e0.aggregateID)
          (getHash st (aggKey ns e0.aggregateID) ++ shuffleS built) := by
  cases events with
  | nil => simp [Save] at h
  | cons e0 rest =>
    cases hb : buildDBEvents c ns gen e0.aggregateID 0 ov (e0 :: rest) with
    | error e => simp [Save, hb] at h
    | ok built =>
      cases hr : (runHSetNXs (getHash st (aggKey ns e0.aggregateID))
          (shuffleS built)).2 with
      | false => simp [Save, hb, hr] at h
      | true =>
        refine ⟨e0, rest, built, rfl, hb, hr, ?_⟩
        simp [Save, hb, hr, ← runHSetNXs_success_append hr]

theorem newDBEvent_ok_elim {c : Codec} {ns : String} {eid : Nat} {ev : Event}
    {ae : AggregateEvent} (h : newDBEvent c ns eid ev = .ok ae) :
    ∃ rd s, c.encMarshal ev.data = .ok rd ∧
      c.metaMarshal ev.metadata = .ok s ∧
      ae = { eventID := eid, nspace := ns, aggregateID := ev.aggregateID,
             aggregateType := ev.aggregateType, eventType := ev.eventType,
             rawEventData := rd, timestamp := ev.timestamp,
             version := ev.version, metaData := none, data := none,
             rawMetaData := some s } := by
  cases hrd : c.encMarshal ev.data with
  | error e => simp [newDBEvent, hrd] at h
  | ok rd =>
    cases hs : c.metaMarshal ev.metadata with
    | error e => simp [newDBEvent, hrd, hs] at h
    | ok s =>
      refine ⟨rd, s, rfl, rfl, ?_⟩
      simp only [newDBEvent, hrd, hs, Except.ok.injEq] at h
      exact h.symm

theorem build_cons_ok_elim {c : Codec} {ns : String} {gen : Nat → Nat}
    {aggId : Nat} {ev : Event} {rest : List Event} {i : Nat} {ver : Int}
    {l : List (String × AggregateEvent)}
    (h : buildDBEvents c ns gen aggId i ver (ev :: rest) = .ok l) :
    ev.aggregateID = aggId ∧ ev.version = ver + 1 ∧
    ∃ ae built, newDBEvent c ns (gen i) ev = .ok ae ∧
      buildDBEvents c ns gen aggId (i + 1) (ver + 1) rest = .ok built ∧
      l = (toString ev.version, ae) :: built := by
  by_cases hid : ev.aggregateID = aggId
  · by_cases hv : ev.version = ver + 1
    · cases hne : newDBEvent c ns (gen i) ev with
      | error e => simp [buildDBEvents, hid, hv, hne] at h
      | ok ae =>
        cases hrest : buildDBEvents c ns gen aggId (i + 1) (ver + 1) rest with
        | error e => simp [buildDBEvents, hid, hv, hne, hrest] at h
        | ok built =>
          refine ⟨hid, hv, ae, built, rfl, rfl, ?_⟩
          simp only [buildDBEvents, hne, hrest] at h
          rw [if_neg (not_not_intro hid), if_neg (not_not_intro hv)] at h
          simp only [Except.ok.injEq] at h
          exact h.symm
    · simp [buildDBEvents, hid, hv] at h
  · simp [buildDBEvents, hid] at h

theorem build_ok_fields {c : Codec} {ns : String} {gen : Nat → Nat}
    {aggId : Nat} : ∀ {evs : List Event} {i : Nat} {ver : Int}
    {l : List (String × AggregateEvent)},
    buildDBEvents c ns gen aggId i ver evs = .ok l →
    l.map (·.1) = evs.map (fun e => toString e.version) := by
  intro evs
  induction evs with
  | nil =>
    intro i ver l h
    simp only [buildDBEvents, Except.ok.injEq] at h
    simp [← h]
  | cons ev rest ih =>
    intro i ver l h
    obtain ⟨hid, hv, ae, built, hne, hrest, hl⟩ := build_cons_ok_elim h
    subst hl
    simp [ih hrest]

theorem build_ok_any_gen {c : Codec} {ns : String} {aggId : Nat} :
    ∀ {evs : List Event} {i : Nat} {ver : Int}
    {l : List (String × AggregateEvent)} {gen : Nat → Nat}
    (gen' : Nat → Nat) (i' : Nat),
    buildDBEvents c ns gen aggId i ver evs = .ok l →
    ∃ l', buildDBEvents c ns gen' aggId i' ver evs = .ok l' := by
  intro evs
  induction evs with
  | nil =>
    intro i ver l gen gen' i' _
    exact ⟨[], rfl⟩
  | cons ev rest ih =>
    intro i ver l gen gen' i' h
    obtain ⟨hid, hv, ae, built, hne, hrest, hl⟩ := build_cons_ok_elim h
    obtain ⟨rd, s, hrd, hs, _⟩ := newDBEvent_ok_elim hne
    obtain ⟨l', hl'⟩ := ih gen' (i' + 1) hrest
    refine ⟨(toString ev.version,
      { eventID := gen' i', nspace := ns, aggregateID := ev.aggregateID,
        aggregateType := ev.aggregateType, eventType := ev.eventType,
        rawEventData := rd, timestamp := ev.timestamp,
        version := ev.version, metaData := none, data := none,
        rawMetaData := some s }) :: l', ?_⟩
    simp [buildDBEvents, hid, hv, newDBEvent_ok hrd hs, hl']

theorem build_ok_fieldvals {c : Codec} {ns : String} {gen : Nat → Nat}
    {aggId : Nat} : ∀ {evs : List Event} {i : Nat} {ver : Int}
    {l : List (String × AggregateEvent)},
    buildDBEvents c ns gen aggId i ver evs = .ok l →
    ∀ p ∈ l, p.1 = toString p.2.version := by
  intro evs
  induction evs with
  | nil =>
    intro i ver l h
    simp only [buildDBEvents, Except.ok.injEq] at h
    simp [← h]
  | cons ev rest ih =>
    intro i ver l h
    obtain ⟨hid, hv, ae, built, hne, hrest, hl⟩ := build_cons_ok_elim h
    subst hl
    obtain ⟨rd, s, _, _, hae⟩ := newDBEvent_ok_elim hne
    intro p hp
    rcases List.mem_cons.1 hp with hp | hp
    · rw [hp, hae]
    · exact ih hrest p hp

theorem build_ok_versions {c : Codec} {ns : String} {gen : Nat → Nat}
    {aggId : Nat} : ∀ {evs : List Event} {i : Nat} {ver : Int}
    {l : List (String × AggregateEvent)},
    buildDBEvents c ns gen aggId i ver evs = .ok l →
    l.map (·.2.version) = intsFrom (ver + 1) evs.length := by
  intro evs
  induction evs with
  | nil =>
    intro i ver l h
    simp only [buildDBEvents, Except.ok.injEq] at h
    simp [← h, intsFrom]
  | cons ev rest ih =>
    intro i ver l h
    obtain ⟨hid, hv, ae, built, hne, hrest, hl⟩ := build_cons_ok_elim h
    subst hl
    obtain ⟨rd, s, _, _, hae⟩ := newDBEvent_ok_elim hne
    simp only [List.map_cons, List.length_cons, intsFrom]
    rw [hae]
    simp [hv, ih hrest]

theorem intsFrom_length (s : Int) : ∀ n : Nat, (intsFrom s n).length = n := by
  intro n
  induction n generalizing s with
  | zero => rfl
  | succ m ih => simp [intsFrom, ih]

theorem intsFrom_append (s : Int) (m k : Nat) :
    intsFrom s (m + k) = intsFrom s m ++ intsFrom (s + m) k := by
  induction m generalizing s with
  | zero => simp [intsFrom]
  | succ n ih =>
    have hrw : n + 1 + k = (n + k) + 1 := by omega
    rw [hrw]
    show s :: intsFrom (s + 1) (n + k) =
      (s :: intsFrom (s + 1) n) ++ intsFrom (s + (n + 1 : Nat)) k
    rw [ih (s + 1), List.cons_append]
    have harith : s + 1 + (n : Int) = s + ((n + 1 : Nat) : Int) := by
      push_cast
      ring
    rw [harith]

/-- C2 : when a Save call targets a version whose slot already exists — here a
second Save of the same batch after a first Save succeeded — the second call
fails and its error is identifiable by kind as the version conflict: Save
returns `eh.EventStoreError{Err: ErrCouldNotSaveAggregate}` whose `BaseErr`
chain carries `ErrVersionConflict`, on which a caller can branch; the first
Save succeeded (hypothesis h1). -/
theorem save_existing_version_conflict (c : Codec) (gen1 gen2 : Nat → Nat)
    (shuffle1 shuffle2 : List (String × AggregateEvent) →
      List (String × AggregateEvent))
    (ns : String) (events : List Event) (ov : Int) (st st1 : Storage)
    (hsh1 : ∀ l, List.Perm (shuffle1 l) l)
    (hsh2 : ∀ l, List.Perm (shuffle2 l) l)
    (h1 : Save c gen1 shuffle1 ns events ov st = (st1, none)) :
    (Save c gen2 shuffle2 ns events ov st1).2 = some conflictWrapped ∧
    conflictWrapped.hasKind .errVersionConflict = true := by
  have h1s : (Save c gen1 shuffle1 ns events ov st).2 = none := by rw [h1]
  obtain ⟨e0, rest, built1, heq, hb1, hr1, hst1⟩ := Save_ok_elim h1s
  subst heq
  have hst1' : st1 = setHash st (aggKey ns e0.aggregateID)
      (getHash st (aggKey ns e0.aggregateID) ++ shuffle1 built1) := by
    rw [← hst1, h1]
  have hkey : getHash st1 (aggKey ns e0.aggregateID) =
      getHash st (aggKey ns e0.aggregateID) ++ shuffle1 built1 := by
    rw [hst1', getHash_setHash_self]
  obtain ⟨built2, hb2⟩ :=
    @build_ok_any_gen c ns e0.aggregateID (e0 :: rest) 0 ov built1 gen1
      gen2 0 hb1
  have hfield1 : toString e0.version ∈ built1.map (·.1) := by
    rw [build_ok_fields hb1]
    exact List.mem_map_of_mem _ (List.mem_cons_self e0 rest)
  have hfield2 : toString e0.version ∈ (shuffle2 built2).map (·.1) := by
    have hin : toString e0.version ∈ built2.map (·.1) := by
      rw [build_ok_fields hb2]
      exact List.mem_map_of_mem _ (List.mem_cons_self e0 rest)
    exact (((hsh2 built2).map (·.1)).mem_iff).2 hin
  have hcol : hashHasField (getHash st1 (aggKey ns e0.aggregateID))
      (toString e0.version) = true := by
    rw [hashHasField_true_iff, hkey, List.map_append]
    exact List.mem_append_right _ ((((hsh1 built1).map (·.1)).mem_iff).2
      hfield1)
  have hrun : (runHSetNXs (getHash st1 (aggKey ns e0.aggregateID))
      (shuffle2 built2)).2 = false :=
    runHSetNXs_collision _ _ hfield2 hcol
  exact ⟨by simp [Save, hb2, hrun], rfl⟩

theorem save_existing_version_conflict_witness :
    (Save idCodec (fun i => i) (fun l => l) "ns" [sampleEvent 1 "p"] 0
      st1W).2 = some conflictWrapped ∧
    conflictWrapped.hasKind .errVersionConflict = true :=
  save_existing_version_conflict idCodec (fun i => i) (fun i => i)
    (fun l => l) (fun l => l) "ns" [sampleEvent 1 "p"] 0 emptyStorage st1W
    (fun l => List.Perm.refl l) (fun l => List.Perm.refl l) rfl

/-- C3 : the per-version writes of one batch are not applied atomically.
Concrete run: aggregate 7 holds version 1 only; a batch of versions 1 and 2 is
saved while the Go map iteration happens to yield version 2 first.  The
`HSetNX` on slot 2 succeeds and takes effect immediately (no MULTI/EXEC is
opened), the `HSetNX` on slot 1 then reports the conflict — Save fails, yet
slot 2 of the failed batch remains created, so storage is not left as it was.
This contradicts the specified all-or-nothing commit (the `Watch` wrapper was
evidently meant to make the loop transactional, but no transaction pipeline is
ever started on the `Tx`). -/
theorem save_partial_write_on_conflict :
    (Save idCodec (fun i => i) (fun l => List.reverse l) "ns"
      [sampleEvent 1 "x", sampleEvent 2 "y"] 0 st1W).2 =
        some conflictWrapped ∧
    hashHasField (getHash (Save idCodec (fun i => i)
      (fun l => List.reverse l) "ns" [sampleEvent 1 "x", sampleEvent 2 "y"] 0
      st1W).1 (aggKey "ns" 7)) "2" = true ∧
    hashHasField (getHash st1W (aggKey "ns" 7)) "2" = false := by
  refine ⟨rfl, rfl, rfl⟩

/-- C1 : counterexample — from empty storage, a Save passing originalVersion 1
with a single event of version 2 succeeds (nothing compares originalVersion
with the stored state), creating the version-2 slot while version 1 is absent;
the resulting version set {2} is not a contiguous {1..N}. -/
theorem save_noncontiguous_cex :
    (Save idCodec (fun i => i) (fun l => l) "ns" [sampleEvent 2 "p"] 1
      emptyStorage).2 = none ∧
    versionsAt (Save idCodec (fun i => i) (fun l => l) "ns" [sampleEvent 2 "p"]
      1 emptyStorage).1 (aggKey "ns" 7) = [2] ∧
    hashHasField (getHash (Save idCodec (fun i => i) (fun l => l) "ns"
      [sampleEvent 2 "p"] 1 emptyStorage).1 (aggKey "ns" 7)) "1" = false := by
  refine ⟨rfl, rfl, rfl⟩

/-- C1 (amended) : after any sequence of successful Save calls for one
aggregate starting from empty storage, the versions present in its slot are
pairwise distinct; if moreover every call passes as originalVersion the count
of versions currently stored (the eventhorizon caller contract), the versions
are exactly the contiguous run {1..N}.  Contiguity for arbitrary successful
calls fails, see `save_noncontiguous_cex`. -/
theorem save_versions_contiguous_of_good_run (c : Codec) (ns : String)
    (aggId : Nat) (st : Storage) :
    (SaveRun c ns aggId st → (versionsAt st (aggKey ns aggId)).Nodup) ∧
    (GoodRun c ns aggId st → List.Perm (versionsAt st (aggKey ns aggId))
      (intsFrom 1 (getHash st (aggKey ns aggId)).length)) := by
  constructor
  · intro hrun
    have hwf : WFHash (getHash st (aggKey ns aggId)) := by
      induction hrun with
      | base =>
        refine ⟨by simp [getHash, emptyStorage], ?_⟩
        intro p hp
        simp [getHash, emptyStorage] at hp
      | step st' events gen shuffleS ov hsh hag hprev hok ih =>
        obtain ⟨e0, rest, built, heq, hb, hr, hst⟩ := Save_ok_elim hok
        have hagg : e0.aggregateID = aggId := hag e0 (by rw [heq]; simp)
        rw [hagg] at hr hst
        rw [hst, getHash_setHash_self]
        refine ⟨?_, ?_⟩
        · have hnodup := runHSetNXs_fields_nodup (shuffleS built)
            (getHash st' (aggKey ns aggId)) ih.1
          rwa [runHSetNXs_success_append hr] at hnodup
        · intro p hp
          rcases List.mem_append.1 hp with hp | hp
          · exact ih.2 p hp
          · exact build_ok_fieldvals hb p ((hsh built).subset hp)
    obtain ⟨hnf, hfv⟩ := hwf
    have hmapeq : (getHash st (aggKey ns aggId)).map (·.1) =
        ((getHash st (aggKey ns aggId)).map (fun p => p.2.version)).map
          toString := by
      rw [List.map_map]
      exact List.map_congr_left hfv
    rw [hmapeq] at hnf
    exact List.Nodup.of_map _ hnf
  · intro hrun
    induction hrun with
    | base => simp [versionsAt, getHash, emptyStorage, intsFrom]
    | step st' events gen shuffleS hsh hag hprev hok ih =>
      obtain ⟨e0, rest, built, heq, hb, hr, hst⟩ := Save_ok_elim hok
      have hagg : e0.aggregateID = aggId := hag e0 (by rw [heq]; simp)
      rw [hagg] at hr hst hb
      rw [hst]
      have hvb : built.map (·.2.version) =
          intsFrom (((getHash st' (aggKey ns aggId)).length : Int) + 1)
            events.length := build_ok_versions hb
      have hlenb : built.length = events.length := by
        have := congrArg List.length hvb
        simpa [intsFrom_length] using this
      have hlens : (shuffleS built).length = built.length :=
        (hsh built).length_eq
      have hperm2 : List.Perm ((shuffleS built).map (fun p => p.2.version))
          (intsFrom (((getHash st' (aggKey ns aggId)).length : Int) + 1)
            events.length) := by
        rw [← hvb]
        exact (hsh built).map _
      have hgoal : List.Perm
          (versionsAt (setHash st' (aggKey ns aggId)
            (getHash st' (aggKey ns aggId) ++ shuffleS built))
            (aggKey ns aggId))
          (intsFrom 1 ((getHash st' (aggKey ns aggId)).length +
            events.length)) := by
        have hsplit : versionsAt (setHash st' (aggKey ns aggId)
            (getHash st' (aggKey ns aggId) ++ shuffleS built))
            (aggKey ns aggId) =
            versionsAt st' (aggKey ns aggId) ++
              (shuffleS built).map (fun p => p.2.version) := by
          simp [versionsAt, getHash_setHash_self]
        rw [hsplit, intsFrom_append]
        refine List.Perm.append ih ?_
        have harith : (1 : Int) + ((getHash st' (aggKey ns aggId)).length :
            Int) = ((getHash st' (aggKey ns aggId)).length : Int) + 1 := by
          ring
        rw [harith]
        exact hperm2
      have hlenfin : (getHash (setHash st' (aggKey ns aggId)
          (getHash st' (aggKey ns aggId) ++ shuffleS built))
          (aggKey ns aggId)).length =
          (getHash st' (aggKey ns aggId)).length + events.length := by
        rw [getHash_setHash_self, List.length_append, hlens, hlenb]
      rw [hlenfin]
      exact hgoal

theorem save_versions_contiguous_of_good_run_witness :
    (versionsAt st1W (aggKey "ns" 7)).Nodup ∧
    List.Perm (versionsAt st1W (aggKey "ns" 7))
      (intsFrom 1 (getHash st1W (aggKey "ns" 7)).length) := by
  have hthm := save_versions_contiguous_of_good_run idCodec "ns" 7 st1W
  have hsave : SaveRun idCodec "ns" 7 st1W :=
    SaveRun.step emptyStorage [sampleEvent 1 "p"] (fun i => i) (fun l => l) 0
      (fun l => List.Perm.refl l) (by decide) SaveRun.base rfl
  have hgood : GoodRun idCodec "ns" 7 st1W :=
    GoodRun.step emptyStorage [sampleEvent 1 "p"] (fun i => i) (fun l => l)
      (fun l => List.Perm.refl l) (by decide) GoodRun.base rfl
  exact ⟨hthm.1 hsave, hthm.2 hgood⟩

theorem hashHasField_append {h : RHash} {x : String × AggregateEvent}
    {f : String} :
    hashHasField (h ++ [x]) f = (hashHasField h f || (x.1 == f)) := by
  simp [hashHasField, List.any_append]

theorem runHSetNXs_disjoint_success :
    ∀ (l : List (String × AggregateEvent)) (h : RHash),
    (l.map (·.1)).Nodup →
    (∀ f ∈ l.map (·.1), hashHasField h f = false) →
    (runHSetNXs h l).2 = true
  | [], _, _, _ => rfl
  | (f, v) :: rest, h, hnd, hdis => by
    have hf : hashHasField h f = false := hdis f (by simp)
    rw [runHSetNXs_step_new hf]
    rw [List.map_cons] at hnd
    have hnd0 := List.nodup_cons.1 hnd
    apply runHSetNXs_disjoint_success rest _ hnd0.2
    intro g hg
    have hgh : hashHasField h g = false := hdis g (by simp [hg])
    have hgf : f ≠ g := by
      intro he
      exact hnd0.1 (he ▸ hg)
    rw [hashHasField_append, hgh]
    simpa using hgf

theorem forall₂_mem_right {α β : Type} {Q : α → β → Prop} :
    ∀ {as : List α} {bs : List β}, List.Forall₂ Q as bs →
    ∀ b ∈ bs, ∃ a ∈ as, Q a b
  | _, _, .nil, b, hb => absurd hb (by simp)
  | _, _, .cons hq hrest, b, hb => by
    rcases List.mem_cons.1 hb with hb | hb
    · exact ⟨_, by simp, hb ▸ hq⟩
    · obtain ⟨a, ha, hQ⟩ := forall₂_mem_right hrest b hb
      exact ⟨a, by simp [ha], hQ⟩

theorem forall₂_map_eq {α β γ : Type} {Q : α → β → Prop} {f : α → γ}
    {g : β → γ} :
    ∀ {as : List α} {bs : List β}, List.Forall₂ Q as bs →
    (∀ a b, Q a b → g b = f a) → bs.map g = as.map f
  | _, _, .nil, _ => rfl
  | _, _, .cons hq hrest, himp => by
    simp only [List.map_cons]
    rw [himp _ _ hq, forall₂_map_eq hrest himp]

theorem pairwise_of_forall₂ {α β : Type} {Q : α → β → Prop}
    {P : α → α → Prop} {R : β → β → Prop} :
    ∀ {as : List α} {bs : List β}, List.Forall₂ Q as bs →
    List.Pairwise P as →
    (∀ a a' b b', Q a b → Q a' b' → P a a' → R b b') → List.Pairwise R bs
  | _, _, .nil, _, _ => List.Pairwise.nil
  | _, _, .cons hq hrest, .cons hp hpt, himp => by
    refine List.Pairwise.cons ?_ (pairwise_of_forall₂ hrest hpt himp)
    intro b' hb'
    obtain ⟨a', ha', hQ'⟩ := forall₂_mem_right hrest b' hb'
    exact himp _ _ _ _ hq hQ' (hp a' ha')

theorem pairwise_version_lt_of_seq {evs : List Event} {ov : Int}
    (hseq : ∀ j (hj : j < evs.length),
      (evs.get ⟨j, hj⟩).version = ov + 1 + j) :
    evs.Pairwise (fun a b => a.version < b.version) := by
  rw [List.pairwise_iff_get]
  intro i j hij
  rw [hseq i.1 i.2, hseq j.1 j.2]
  have : (i.1 : Int) < j.1 := by exact_mod_cast hij
  omega

theorem build_spec {c : Codec} {ns : String} {gen : Nat → Nat} {aggId : Nat} :
    ∀ (evs : List Event) (i : Nat) (ver : Int),
    (∀ e ∈ evs, e.aggregateID = aggId) →
    (∀ j (hj : j < evs.length), (evs.get ⟨j, hj⟩).version = ver + 1 + j) →
    (∀ e ∈ evs, (∃ rd, c.encMarshal e.data = .ok rd) ∧
      (∃ s, c.metaMarshal e.metadata = .ok s)) →
    ∃ l, buildDBEvents c ns gen aggId i ver evs = .ok l ∧
      List.Forall₂ (BuiltFrom c ns) evs l
  | [], _, _, _, _, _ => ⟨[], rfl, .nil⟩
  | ev :: rest, i, ver, hag, hseq, hm => by
    have hv : ev.version = ver + 1 := by
      have h0 := hseq 0 (by simp)
      simpa using h0
    have hid : ev.aggregateID = aggId := hag ev (by simp)
    obtain ⟨⟨rd, hrd⟩, ⟨s, hs⟩⟩ := hm ev (by simp)
    have hseq' : ∀ j (hj : j < rest.length),
        (rest.get ⟨j, hj⟩).version = (ver + 1) + 1 + j := by
      intro j hj
      have hj1 : j + 1 < (ev :: rest).length := by
        simpa using Nat.succ_lt_succ hj
      have hg := hseq (j + 1) hj1
      have hgk : ((ev :: rest).get ⟨j + 1, hj1⟩) = rest.get ⟨j, hj⟩ := rfl
      rw [hgk] at hg
      rw [hg]
      push_cast
      ring
    obtain ⟨l, hl, hF⟩ := @build_spec c ns gen aggId rest (i + 1) (ver + 1)
      (fun e he => hag e (by simp [he])) hseq'
      (fun e he => hm e (by simp [he]))
    refine ⟨(toString ev.version,
      { eventID := gen i, nspace := ns, aggregateID := ev.aggregateID,
        aggregateType := ev.aggregateType, eventType := ev.eventType,
        rawEventData := rd, timestamp := ev.timestamp,
        version := ev.version, metaData := none, data := none,
        rawMetaData := some s }) :: l, ?_, ?_⟩
    · simp [buildDBEvents, hid, hv, newDBEvent_ok hrd hs, hl]
    · refine List.Forall₂.cons ?_ hF
      exact ⟨rfl, rfl, rfl, rfl, rfl, rfl, rfl, rfl, rfl, hrd, s, hs, rfl⟩

theorem decodeDBEvent_run_none {c : Codec} {v : AggregateEvent} {m : Meta}
    {raw2 : String} (hre : v.rawEventData = none)
    (hrm : v.rawMetaData = some raw2) (hmu : c.metaUnmarshal raw2 = .ok m) :
    decodeDBEvent c v =
      .ok { v with data := none, rawEventData := none, metaData := m } := by
  simp [decodeDBEvent, hre, hrm, hmu]

theorem decodeDBEvent_run_some {c : Codec} {v : AggregateEvent} {b d : String}
    {m : Meta} {raw2 : String} (hre : v.rawEventData = some b)
    (hu : c.encUnmarshal v.eventType b = .ok d)
    (hrm : v.rawMetaData = some raw2) (hmu : c.metaUnmarshal raw2 = .ok m) :
    decodeDBEvent c v =
      .ok { v with data := some d, rawEventData := none, metaData := m } := by
  simp [decodeDBEvent, hre, hu, hrm, hmu]

theorem decode_built {c : Codec} {ns : String} {e : Event}
    {p : String × AggregateEvent} (hbf : BuiltFrom c ns e p)
    (hrt : EncRoundTrip c e.eventType e.data)
    (hmrt : MetaRoundTrip c e.metadata) :
    ∃ r, decodeDBEvent c p.2 = .ok r ∧ eventObs r = inputObs e ∧
      r.version = e.version := by
  obtain ⟨hf, hid, hat, het, hver, hts, hns, hdata, hmeta, hmar,
    s, hms, hraw⟩ := hbf
  obtain ⟨s', hms', hmu'⟩ := hmrt
  have hss : s' = s := by
    rw [hms] at hms'
    exact (Except.ok.inj hms').symm
  rw [hss] at hmu'
  cases hd : e.data with
  | none =>
    rw [hd] at hrt
    have hrdnone : p.2.rawEventData = none := by
      rw [hd] at hmar
      rw [hrt] at hmar
      exact (Except.ok.inj hmar).symm
    refine ⟨_, decodeDBEvent_run_none hrdnone hraw hmu', ?_, ?_⟩
    · simp [eventObs, inputObs, hid, hat, het, hver, hts, hd]
    · simp [hver]
  | some pd =>
    rw [hd] at hrt
    obtain ⟨b, hb1, hb2⟩ := hrt
    have hrdsome : p.2.rawEventData = some b := by
      rw [hd] at hmar
      rw [hb1] at hmar
      exact (Except.ok.inj hmar).symm
    have hub : c.encUnmarshal p.2.eventType b = .ok pd := by
      rw [het]
      exact hb2
    refine ⟨_, decodeDBEvent_run_some hrdsome hub hraw hmu', ?_, ?_⟩
    · simp [eventObs, inputObs, hid, hat, het, hver, hts, hd]
    · simp [hver]

theorem decodeAll_of_all_ok (c : Codec) :
    ∀ (vals : List AggregateEvent),
    (∀ v ∈ vals, ∃ r, decodeDBEvent c v = .ok r) →
    decodeAll c vals = .ok (vals.map (decOr c))
  | [], _ => rfl
  | v :: rest, hall => by
    obtain ⟨r, hr⟩ := hall v (by simp)
    have hrec := decodeAll_of_all_ok c rest (fun x hx => hall x (by simp [hx]))
    have hdor : decOr c v = r := by simp [decOr, hr, Except.toOption]
    simp [decodeAll, hr, hrec, hdor]

theorem forall₂_decoded {c : Codec} {ns : String} :
    ∀ {evs : List Event} {built : List (String × AggregateEvent)},
    List.Forall₂ (BuiltFrom c ns) evs built →
    (∀ e ∈ evs, EncRoundTrip c e.eventType e.data ∧
      MetaRoundTrip c e.metadata) →
    List.Forall₂ (fun e r => eventObs r = inputObs e ∧ r.version = e.version)
      evs (built.map (fun p => decOr c p.2))
  | _, _, .nil, _ => .nil
  | e :: evs', p :: built', .cons hq hrest, hrts => by
    obtain ⟨hrt, hmrt⟩ := hrts e (by simp)
    obtain ⟨r, hr, hobs, hver⟩ := decode_built hq hrt hmrt
    have hdor : decOr c p.2 = r := by simp [decOr, hr, Except.toOption]
    refine List.Forall₂.cons ?_
      (forall₂_decoded hrest (fun x hx => hrts x (by simp [hx])))
    show eventObs (decOr c p.2) = inputObs e ∧ (decOr c p.2).version = e.version
    rw [hdor]
    exact ⟨hobs, hver⟩

/-- C4 : for every valid batch (non-empty, one aggregate id, versions
strictly sequential from originalVersion + 1) whose payloads and metadata
round-trip through the codec, Save into an aggregate slot holding no records
succeeds, and Load on the same namespace and aggregate id returns exactly the
appended events in ascending version order: every observable of the returned
events — aggregate id, aggregate type, event type, version, timestamp,
payload, metadata — equals the original's.  (hfld records that the
stringified versions are pairwise distinct, which holds for any distinct
integers and is checked concretely in the witness.) -/
theorem save_load_round_trip (c : Codec) (gen : Nat → Nat)
    (shuffleS : List (String × AggregateEvent) →
      List (String × AggregateEvent))
    (shuffleL : RHash → RHash) (ns : String) (e0 : Event) (rest : List Event)
    (ov : Int) (st : Storage)
    (hshS : ∀ l, List.Perm (shuffleS l) l)
    (hshL : ∀ l, List.Perm (shuffleL l) l)
    (hempty : getHash st (aggKey ns e0.aggregateID) = [])
    (hag : ∀ e ∈ e0 :: rest, e.aggregateID = e0.aggregateID)
    (hseq : ∀ j (hj : j < (e0 :: rest).length),
      ((e0 :: rest).get ⟨j, hj⟩).version = ov + 1 + j)
    (hrts : ∀ e ∈ e0 :: rest,
      EncRoundTrip c e.eventType e.data ∧ MetaRoundTrip c e.metadata)
    (hfld : ((e0 :: rest).map (fun e => toString e.version)).Nodup) :
    (Save c gen shuffleS ns (e0 :: rest) ov st).2 = none ∧
    ∃ es, Load c shuffleL ns e0.aggregateID
        (Save c gen shuffleS ns (e0 :: rest) ov st).1 = .ok es ∧
      es.map eventObs = (e0 :: rest).map inputObs := by
  have hm : ∀ e ∈ e0 :: rest, (∃ rd, c.encMarshal e.data = .ok rd) ∧
      (∃ s, c.metaMarshal e.metadata = .ok s) := by
    intro e he
    obtain ⟨hrt, hmrt⟩ := hrts e he
    refine ⟨?_, ?_⟩
    · cases hd : e.data with
      | none =>
        rw [hd] at hrt
        exact ⟨none, hrt⟩
      | some p =>
        rw [hd] at hrt
        obtain ⟨b, hb1, _⟩ := hrt
        exact ⟨some b, hb1⟩
    · obtain ⟨s, hs1, _⟩ := hmrt
      exact ⟨s, hs1⟩
  obtain ⟨built, hb, hF⟩ := @build_spec c ns gen e0.aggregateID (e0 :: rest)
    0 ov hag hseq hm
  have hfields : built.map (·.1) =
      (e0 :: rest).map (fun e => toString e.version) := build_ok_fields hb
  have hndS : ((shuffleS built).map (·.1)).Nodup := by
    have hp : List.Perm ((shuffleS built).map (·.1)) (built.map (·.1)) :=
      (hshS built).map _
    rw [hfields] at hp
    exact hp.nodup_iff.2 hfld
  have hsucc : (runHSetNXs (getHash st (aggKey ns e0.aggregateID))
      (shuffleS built)).2 = true := by
    rw [hempty]
    exact runHSetNXs_disjoint_success _ _ hndS (fun f _ => rfl)
  have hsave1 : (Save c gen shuffleS ns (e0 :: rest) ov st).2 = none := by
    simp [Save, hb, hsucc]
  refine ⟨hsave1, ?_⟩
  have happ := runHSetNXs_success_append hsucc
  have hhash : getHash (Save c gen shuffleS ns (e0 :: rest) ov st).1
      (aggKey ns e0.aggregateID) = shuffleS built := by
    have h1 : (Save c gen shuffleS ns (e0 :: rest) ov st).1 =
        setHash st (aggKey ns e0.aggregateID)
          ((runHSetNXs (getHash st (aggKey ns e0.aggregateID))
            (shuffleS built)).1) := by
      simp [Save, hb, hsucc]
    rw [h1, getHash_setHash_self, happ, hempty, List.nil_append]
  have hall : ∀ v ∈ (shuffleL (shuffleS built)).map (·.2),
      ∃ r, decodeDBEvent c v = .ok r := by
    intro v hv
    obtain ⟨p, hp, hpv⟩ := List.mem_map.1 hv
    have hpb : p ∈ built := (hshS built).subset ((hshL _).subset hp)
    obtain ⟨e, he, hQ⟩ := forall₂_mem_right hF p hpb
    obtain ⟨hrt, hmrt⟩ := hrts e he
    obtain ⟨r, hr, _, _⟩ := decode_built hQ hrt hmrt
    exact ⟨r, hpv ▸ hr⟩
  have hdecode := decodeAll_of_all_ok c _ hall
  have hFdl := forall₂_decoded hF hrts
  have hevlt : (e0 :: rest).Pairwise (fun a b => a.version < b.version) :=
    pairwise_version_lt_of_seq hseq
  have hdl_lt : (built.map (fun p => decOr c p.2)).Pairwise ltByVersion :=
    pairwise_of_forall₂ hFdl hevlt (fun a a' b b' hq hq' hp => by
      show b.version < b'.version
      rw [hq.2, hq'.2]
      exact hp)
  have hperm : List.Perm (((shuffleL (shuffleS built)).map (·.2)).map
      (decOr c)) (built.map (fun p => decOr c p.2)) := by
    have h1 : List.Perm (shuffleL (shuffleS built)) built :=
      (hshL _).trans (hshS built)
    have h2 := (h1.map (·.2)).map (decOr c)
    have h3 : (built.map (·.2)).map (decOr c) =
        built.map (fun p => decOr c p.2) := by
      rw [List.map_map]
      rfl
    rw [← h3]
    exact h2
  have hver_dl : (built.map (fun p => decOr c p.2)).map (·.version) =
      (e0 :: rest).map (·.version) :=
    forall₂_map_eq hFdl (fun a b h => h.2)
  have hnodup_ev : ((e0 :: rest).map (·.version)).Nodup :=
    List.pairwise_map.2 (hevlt.imp (fun h => ne_of_lt h))
  have hsorted_le := List.sorted_insertionSort leByVersion
    (((shuffleL (shuffleS built)).map (·.2)).map (decOr c))
  have hperm_sort : List.Perm (sortByVersion (((shuffleL
      (shuffleS built)).map (·.2)).map (decOr c)))
      (built.map (fun p => decOr c p.2)) :=
    (List.perm_insertionSort leByVersion _).trans hperm
  have hnodup_sort : ((sortByVersion (((shuffleL (shuffleS built)).map
      (·.2)).map (decOr c))).map (·.version)).Nodup := by
    have hp := hperm_sort.map (·.version)
    rw [hver_dl] at hp
    exact hp.nodup_iff.2 hnodup_ev
  have hsorted_lt : (sortByVersion (((shuffleL (shuffleS built)).map
      (·.2)).map (decOr c))).Pairwise ltByVersion :=
    pairwise_lt_of_le_nodup hsorted_le hnodup_sort
  have heq_dl : sortByVersion (((shuffleL (shuffleS built)).map (·.2)).map
      (decOr c)) = built.map (fun p => decOr c p.2) :=
    List.eq_of_perm_of_sorted hperm_sort hsorted_lt hdl_lt
  refine ⟨built.map (fun p => decOr c p.2), ?_, ?_⟩
  · simp only [Load, hhash, hdecode]
    rw [heq_dl]
  · exact forall₂_map_eq hFdl (fun a b h => h.1)

theorem save_load_round_trip_witness :
    (Save idCodec (fun i => i) (fun l => l) "ns"
      [sampleEvent 1 "p", sampleEvent 2 "q"] 0 emptyStorage).2 = none :=
  (save_load_round_trip idCodec (fun i => i) (fun l => l) (fun l => l) "ns"
    (sampleEvent 1 "p") [sampleEvent 2 "q"] 0 emptyStorage
    (fun l => List.Perm.refl l) (fun l => List.Perm.refl l) rfl
    (by decide) (by decide)
    (by
      intro e he
      rcases List.mem_cons.1 he with he | he
      · subst he
        exact ⟨⟨"p", rfl, rfl⟩, ⟨"null", rfl, rfl⟩⟩
      · rw [List.mem_singleton] at he
        subst he
        exact ⟨⟨"q", rfl, rfl⟩, ⟨"null", rfl, rfl⟩⟩)
    (by decide)).1

theorem runConc_dead1 : ∀ (sched : List (Bool × String × AggregateEvent))
    (h : RHash) (a2 : Bool), (runConc sched h false a2).2.1 = false
  | [], _, _ => rfl
  | (who, f, v) :: rest, h, a2 => by
    cases who with
    | true => simpa [runConc] using runConc_dead1 rest h a2
    | false =>
      cases ha : a2 with
      | false => simpa [runConc] using runConc_dead1 rest h false
      | true =>
        cases hcol : hashHasField h f with
        | true => simpa [runConc, hcol] using runConc_dead1 rest h false
        | false =>
          simpa [runConc, hcol] using runConc_dead1 rest (h ++ [(f, v)]) true

theorem runConc_dead2 : ∀ (sched : List (Bool × String × AggregateEvent))
    (h : RHash) (a1 : Bool), (runConc sched h a1 false).2.2 = false
  | [], _, _ => rfl
  | (who, f, v) :: rest, h, a1 => by
    cases who with
    | false => simpa [runConc] using runConc_dead2 rest h a1
    | true =>
      cases ha : a1 with
      | false => simpa [runConc] using runConc_dead2 rest h false
      | true =>
        cases hcol : hashHasField h f with
        | true => simpa [runConc, hcol] using runConc_dead2 rest h false
        | false =>
          simpa [runConc, hcol] using runConc_dead2 rest (h ++ [(f, v)]) true

theorem runConc_mono {f : String} :
    ∀ (sched : List (Bool × String × AggregateEvent)) (h : RHash)
    (a1 a2 : Bool), hashHasField h f = true →
    hashHasField (runConc sched h a1 a2).1 f = true
  | [], _, _, _, hf => hf
  | (who, g, v) :: rest, h, a1, a2, hf => by
    have hgrow : hashHasField (h ++ [(g, v)]) f = true := by
      rw [hashHasField_append, hf]
      rfl
    cases who with
    | true =>
      cases ha : a1 with
      | false => simpa [runConc] using runConc_mono rest h false a2 hf
      | true =>
        cases hcol : hashHasField h g with
        | true => simpa [runConc, hcol] using runConc_mono rest h false a2 hf
        | false =>
          simpa [runConc, hcol] using
            runConc_mono rest (h ++ [(g, v)]) true a2 hgrow
    | false =>
      cases ha : a2 with
      | false => simpa [runConc] using runConc_mono rest h a1 false hf
      | true =>
        cases hcol : hashHasField h g with
        | true => simpa [runConc, hcol] using runConc_mono rest h a1 false hf
        | false =>
          simpa [runConc, hcol] using
            runConc_mono rest (h ++ [(g, v)]) a1 true hgrow

theorem runConc_present_kills1 {f : String} :
    ∀ (sched : List (Bool × String × AggregateEvent)) (h : RHash)
    (a1 a2 : Bool), hashHasField h f = true →
    f ∈ (sched.filter (fun t => t.1 == true)).map (fun t => t.2.1) →
    (runConc sched h a1 a2).2.1 = false
  | [], _, _, _, _, hmem => by simp at hmem
  | (who, g, v) :: rest, h, a1, a2, hf, hmem => by
    cases who with
    | false =>
      have hmem' : f ∈ (rest.filter (fun t => t.1 == true)).map
          (fun t => t.2.1) := by simpa using hmem
      cases ha : a2 with
      | false =>
        simpa [runConc] using runConc_present_kills1 rest h a1 false hf hmem'
      | true =>
        cases hcol : hashHasField h g with
        | true =>
          simpa [runConc, hcol] using
            runConc_present_kills1 rest h a1 false hf hmem'
        | false =>
          have hgrow : hashHasField (h ++ [(g, v)]) f = true := by
            rw [hashHasField_append, hf]
            rfl
          simpa [runConc, hcol] using
            runConc_present_kills1 rest (h ++ [(g, v)]) a1 true hgrow hmem'
    | true =>
      cases ha : a1 with
      | false => simpa [runConc] using runConc_dead1 rest h a2
      | true =>
        cases hcol : hashHasField h g with
        | true => simpa [runConc, hcol] using runConc_dead1 rest h a2
        | false =>
          have hfg : f ≠ g := by
            intro he
            rw [← he] at hcol
            rw [hf] at hcol
            exact Bool.noConfusion hcol
          have hmem' : f ∈ (rest.filter (fun t => t.1 == true)).map
              (fun t => t.2.1) := by
            simp only [List.filter_cons] at hmem
            simp at hmem
            rcases hmem with hmem | hmem
            · exact absurd hmem hfg
            · simpa using hmem
          have hgrow : hashHasField (h ++ [(g, v)]) f = true := by
            rw [hashHasField_append, hf]
            rfl
          simpa [runConc, hcol] using
            runConc_present_kills1 rest (h ++ [(g, v)]) true a2 hgrow hmem'

theorem runConc_present_kills2 {f : String} :
    ∀ (sched : List (Bool × String × AggregateEvent)) (h : RHash)
    (a1 a2 : Bool), hashHasField h f = true →
    f ∈ (sched.filter (fun t => t.1 == false)).map (fun t => t.2.1) →
    (runConc sched h a1 a2).2.2 = false
  | [], _, _, _, _, hmem => by simp at hmem
  | (who, g, v) :: rest, h, a1, a2, hf, hmem => by
    cases who with
    | true =>
      have hmem' : f ∈ (rest.filter (fun t => t.1 == false)).map
          (fun t => t.2.1) := by simpa using hmem
      cases ha : a1 with
      | false =>
        simpa [runConc] using runConc_present_kills2 rest h false a2 hf hmem'
      | true =>
        cases hcol : hashHasField h g with
        | true =>
          simpa [runConc, hcol] using
            runConc_present_kills2 rest h false a2 hf hmem'
        | false =>
          have hgrow : hashHasField (h ++ [(g, v)]) f = true := by
            rw [hashHasField_append, hf]
            rfl
          simpa [runConc, hcol] using
            runConc_present_kills2 rest (h ++ [(g, v)]) true a2 hgrow hmem'
    | false =>
      cases ha : a2 with
      | false => simpa [runConc] using runConc_dead2 rest h a1
      | true =>
        cases hcol : hashHasField h g with
        | true => simpa [runConc, hcol] using runConc_dead2 rest h a1
        | false =>
          have hfg : f ≠ g := by
            intro he
            rw [← he] at hcol
            rw [hf] at hcol
            exact Bool.noConfusion hcol
          have hmem' : f ∈ (rest.filter (fun t => t.1 == false)).map
              (fun t => t.2.1) := by
            simp only [List.filter_cons] at hmem
            simp at hmem
            rcases hmem with hmem | hmem
            · exact absurd hmem hfg
            · simpa using hmem
          have hgrow : hashHasField (h ++ [(g, v)]) f = true := by
            rw [hashHasField_append, hf]
            rfl
          simpa [runConc, hcol] using
            runConc_present_kills2 rest (h ++ [(g, v)]) a1 true hgrow hmem'

theorem runConc_not_both {f : String} :
    ∀ (sched : List (Bool × String × AggregateEvent)) (h : RHash)
    (a1 a2 : Bool),
    f ∈ (sched.filter (fun t => t.1 == true)).map (fun t => t.2.1) →
    f ∈ (sched.filter (fun t => t.1 == false)).map (fun t => t.2.1) →
    ¬((runConc sched h a1 a2).2.1 = true ∧
      (runConc sched h a1 a2).2.2 = true)
  | [], _, _, _, hm1, _ => by simp at hm1
  | (who, g, v) :: rest, h, a1, a2, hm1, hm2 => by
    cases who with
    | true =>
      have hm2' : f ∈ (rest.filter (fun t => t.1 == false)).map
          (fun t => t.2.1) := by simpa using hm2
      cases ha : a1 with
      | false =>
        intro hcon
        rw [show runConc ((true, g, v) :: rest) h false a2 =
          runConc rest h false a2 from by simp [runConc]] at hcon
        rw [runConc_dead1 rest h a2] at hcon
        exact Bool.noConfusion hcon.1
      | true =>
        cases hcol : hashHasField h g with
        | true =>
          intro hcon
          rw [show runConc ((true, g, v) :: rest) h true a2 =
            runConc rest h false a2 from by simp [runConc, hcol]] at hcon
          rw [runConc_dead1 rest h a2] at hcon
          exact Bool.noConfusion hcon.1
        | false =>
          rw [show runConc ((true, g, v) :: rest) h true a2 =
            runConc rest (h ++ [(g, v)]) true a2 from by
              simp [runConc, hcol]]
          by_cases hfg : f = g
          · intro hcon
            have hpres : hashHasField (h ++ [(g, v)]) f = true := by
              rw [hashHasField_append]
              subst hfg
              simp
            rw [runConc_present_kills2 rest (h ++ [(g, v)]) true a2 hpres
              hm2'] at hcon
            exact Bool.noConfusion hcon.2
          · have hm1' : f ∈ (rest.filter (fun t => t.1 == true)).map
                (fun t => t.2.1) := by
              simp only [List.filter_cons] at hm1
              simp at hm1
              rcases hm1 with hm1 | hm1
              · exact absurd hm1 hfg
              · simpa using hm1
            exact runConc_not_both rest (h ++ [(g, v)]) true a2 hm1' hm2'
    | false =>
      have hm1' : f ∈ (rest.filter (fun t => t.1 == true)).map
          (fun t => t.2.1) := by simpa using hm1
      cases ha : a2 with
      | false =>
        intro hcon
        rw [show runConc ((false, g, v) :: rest) h a1 false =
          runConc rest h a1 false from by simp [runConc]] at hcon
        rw [runConc_dead2 rest h a1] at hcon
        exact Bool.noConfusion hcon.2
      | true =>
        cases hcol : hashHasField h g with
        | true =>
          intro hcon
          rw [show runConc ((false, g, v) :: rest) h a1 true =
            runConc rest h a1 false from by simp [runConc, hcol]] at hcon
          rw [runConc_dead2 rest h a1] at hcon
          exact Bool.noConfusion hcon.2
        | false =>
          rw [show runConc ((false, g, v) :: rest) h a1 true =
            runConc rest (h ++ [(g, v)]) a1 true from by
              simp [runConc, hcol]]
          by_cases hfg : f = g
          · intro hcon
            have hpres : hashHasField (h ++ [(g, v)]) f = true := by
              rw [hashHasField_append]
              subst hfg
              simp
            rw [runConc_present_kills1 rest (h ++ [(g, v)]) a1 true hpres
              hm1'] at hcon
            exact Bool.noConfusion hcon.1
          · have hm2' : f ∈ (rest.filter (fun t => t.1 == false)).map
                (fun t => t.2.1) := by
              simp only [List.filter_cons] at hm2
              simp at hm2
              rcases hm2 with hm2 | hm2
              · exact absurd hm2 hfg
              · simpa using hm2
            exact runConc_not_both rest (h ++ [(g, v)]) a1 true hm1' hm2'

theorem runConc_fields_nodup :
    ∀ (sched : List (Bool × String × AggregateEvent)) (h : RHash)
    (a1 a2 : Bool), (h.map (·.1)).Nodup →
    ((runConc sched h a1 a2).1.map (·.1)).Nodup
  | [], _, _, _, hn => hn
  | (who, g, v) :: rest, h, a1, a2, hn => by
    have hgrow : hashHasField h g = false →
        ((h ++ [(g, v)]).map (·.1)).Nodup := by
      intro hcol
      have hnotin : g ∉ h.map (·.1) := hashHasField_false_iff.1 hcol
      simp [List.nodup_append, hn, hnotin]
    cases who with
    | true =>
      cases ha : a1 with
      | false => simpa [runConc] using runConc_fields_nodup rest h false a2 hn
      | true =>
        cases hcol : hashHasField h g with
        | true =>
          simpa [runConc, hcol] using
            runConc_fields_nodup rest h false a2 hn
        | false =>
          simpa [runConc, hcol] using
            runConc_fields_nodup rest (h ++ [(g, v)]) true a2 (hgrow hcol)
    | false =>
      cases ha : a2 with
      | false => simpa [runConc] using runConc_fields_nodup rest h a1 false hn
      | true =>
        cases hcol : hashHasField h g with
        | true =>
          simpa [runConc, hcol] using
            runConc_fields_nodup rest h a1 false hn
        | false =>
          simpa [runConc, hcol] using
            runConc_fields_nodup rest (h ++ [(g, v)]) a1 true (hgrow hcol)

/-- C9 : two concurrent Save calls on the same (namespace, aggregate) whose
batches contain an overlapping version never both succeed, under every
interleaving of their per-version `HSetNX` commands (each single command is
atomic on the server; a writer that sees its slot taken returns from the
`Watch` closure, whose only in-loop failure is the wrapped
`ErrVersionConflict`, so the losing call's returned error is exactly
`conflictWrapped`); and the contested version's field holds at most one record
afterwards, so the two never both commit a record for it. -/
theorem concurrent_save_overlap_exclusive (c : Codec) (ns : String)
    (gen1 gen2 : Nat → Nat) (aggId : Nat) (evs1 evs2 : List Event)
    (ov1 ov2 : Int) (l1 l2 ops1 ops2 : List (String × AggregateEvent))
    (sched : List (Bool × String × AggregateEvent)) (h0 : RHash) (v : Int)
    (hb1 : buildDBEvents c ns gen1 aggId 0 ov1 evs1 = .ok l1)
    (hb2 : buildDBEvents c ns gen2 aggId 0 ov2 evs2 = .ok l2)
    (hop1 : List.Perm ops1 l1) (hop2 : List.Perm ops2 l2)
    (hv1 : v ∈ evs1.map (·.version)) (hv2 : v ∈ evs2.map (·.version))
    (hs1 : (sched.filter (fun t => t.1 == true)).map (·.2) = ops1)
    (hs2 : (sched.filter (fun t => t.1 == false)).map (·.2) = ops2)
    (hnd : (h0.map (·.1)).Nodup) :
    ¬((runConc sched h0 true true).2.1 = true ∧
      (runConc sched h0 true true).2.2 = true) ∧
    ((runConc sched h0 true true).2.1 = false →
      concSaveResult (runConc sched h0 true true).2.1 =
        some conflictWrapped) ∧
    ((runConc sched h0 true true).2.2 = false →
      concSaveResult (runConc sched h0 true true).2.2 =
        some conflictWrapped) ∧
    ((runConc sched h0 true true).1.map (·.1)).count (toString v) ≤ 1 := by
  have hf1 : toString v ∈ l1.map (·.1) := by
    rw [build_ok_fields hb1]
    obtain ⟨e, he, hev⟩ := List.mem_map.1 hv1
    exact List.mem_map.2 ⟨e, he, by rw [hev]⟩
  have hf2 : toString v ∈ l2.map (·.1) := by
    rw [build_ok_fields hb2]
    obtain ⟨e, he, hev⟩ := List.mem_map.1 hv2
    exact List.mem_map.2 ⟨e, he, by rw [hev]⟩
  have hm1 : toString v ∈
      (sched.filter (fun t => t.1 == true)).map (fun t => t.2.1) := by
    have he1 : (sched.filter (fun t => t.1 == true)).map (fun t => t.2.1) =
        ops1.map (·.1) := by
      rw [← hs1, List.map_map]
      rfl
    rw [he1]
    exact (hop1.map (·.1)).mem_iff.2 hf1
  have hm2 : toString v ∈
      (sched.filter (fun t => t.1 == false)).map (fun t => t.2.1) := by
    have he2 : (sched.filter (fun t => t.1 == false)).map (fun t => t.2.1) =
        ops2.map (·.1) := by
      rw [← hs2, List.map_map]
      rfl
    rw [he2]
    exact (hop2.map (·.1)).mem_iff.2 hf2
  refine ⟨runConc_not_both sched h0 true true hm1 hm2, ?_, ?_, ?_⟩
  · intro hfalse
    rw [hfalse]
    rfl
  · intro hfalse
    rw [hfalse]
    rfl
  · exact List.nodup_iff_count_le_one.1
      (runConc_fields_nodup sched h0 true true hnd) (toString v)

theorem concurrent_save_overlap_exclusive_witness :
    ¬((runConc schedW [] true true).2.1 = true ∧
      (runConc schedW [] true true).2.2 = true) :=
  (concurrent_save_overlap_exclusive idCodec "ns" (fun i => i) (fun i => i) 7
    [sampleEvent 1 "x"] [sampleEvent 1 "y"] 0 0
    [("1", recW1)] [("1", recW2)] [("1", recW1)] [("1", recW2)]
    schedW [] 1 rfl rfl (List.Perm.refl _) (List.Perm.refl _)
    (by decide) (by decide) rfl rfl (by decide)).1

end EhRedis
